import Mathlib

/-!
# Verification of `downloads_organizer.py`

A shallow embedding of the core of the downloads organizer: the extension
table and classifier, the pending-file registry (a Python `dict` from path
to first-seen timestamp, modelled as an insertion-ordered association
list), the startup scan, the creation-event handler, the mover
(`organize_file`) and the sweep (`process_pending_files`).

Timestamps are wall-clock seconds modelled as `Int` (`datetime` values and
their differences).  The filesystem visible to the program is modelled as a
finite map from absolute file path to file content; `shutil.move` on a
same-filesystem POSIX rename silently replaces an existing destination
file, which the model reflects by overwriting the destination binding.
I/O failure of the move primitive (the exception caught by
`organize_file`'s `try/except`) is modelled by an environment oracle
`moveRaises : String → Bool` saying whether moving a given source path
raises; a raised move leaves the filesystem unchanged.
-/

/-- Python `dict` lookup `d[k]` (as an `Option`), over an
insertion-ordered association list. -/
def dictLookup {α : Type} : List (String × α) → String → Option α
  | [], _ => none
  | e :: d, k => if e.1 = k then some e.2 else dictLookup d k

/-- Python `dict` assignment `d[k] = v`: update the existing binding in
place (keeping its position, as Python dicts keep insertion order), or
append a new binding at the end. -/
def dictInsert {α : Type} : List (String × α) → String → α → List (String × α)
  | [], k, v => [(k, v)]
  | e :: d, k, v => if e.1 = k then (k, v) :: d else e :: dictInsert d k v

/-- Python `del d[k]`: drop the binding for `k` (all of them, which on the
unique-key lists produced by `dictInsert` is the one binding). -/
def dictRemove {α : Type} : List (String × α) → String → List (String × α)
  | [], _ => []
  | e :: d, k => if e.1 = k then dictRemove d k else e :: dictRemove d k

/-- The keys of an association list, in order. -/
def dictKeys {α : Type} (d : List (String × α)) : List String :=
  d.map (·.1)

/-- The `EXTENSIONS` dictionary of the source: category name to list of
lower-cased extensions, in the source's insertion order. -/
def EXTENSIONS : List (String × List String) :=
  [("images", [".jpg", ".jpeg", ".png", ".gif", ".bmp", ".tiff", ".webp", ".svg", ".ico"]),
   ("videos", [".mp4", ".avi", ".mkv", ".mov", ".wmv", ".flv", ".webm", ".m4v", ".3gp"]),
   ("documents", [".pdf", ".doc", ".docx", ".txt", ".xlsx", ".ppt", ".pptx", ".csv", ".odt"]),
   ("music", [".mp3", ".wav", ".flac", ".m4a", ".ogg", ".midi", ".aac", ".wma"]),
   ("programs", [".exe", ".msi", ".app", ".bat", ".cmd", ".py", ".jar", ".dll"]),
   ("compressed", [".zip", ".rar", ".7z", ".tar", ".gz", ".bz2", ".xz", ".iso"]),
   ("others", [])]

/-- Python `str.lower()` on an extension string: lower-case each
character (ASCII case folding, which is all the extension table needs). -/
def strToLower (s : String) : String :=
  String.mk (s.data.map Char.toLower)

/-- The classification loop of `organize_file` (lines 81–85 of the
source): `category = 'others'`, then the first category whose extension
list contains `file.suffix.lower()` wins via `break`. -/
def classifyExt (ext : String) : String :=
  match EXTENSIONS.find? (fun ce => ce.2.contains (strToLower ext)) with
  | some ce => ce.1
  | none => "others"

/-- Index (from the left) of the last occurrence of a dot in a list of
characters, if any. -/
def lastDotIdx : List Char → Option Nat
  | [] => none
  | c :: cs =>
    match lastDotIdx cs with
    | some i => some (i + 1)
    | none => if c = '.' then some 0 else none

/-- Python `pathlib`'s suffix rule applied to a single path component
`name`: with `i = name.rfind('.')`, the suffix is `name[i:]` when
`0 < i < len(name) - 1` and the empty string otherwise (so `"a.tar.gz"`
gives `".gz"`, while `".bashrc"` and `"file."` give `""`). -/
def pySuffix (name : String) : String :=
  match lastDotIdx name.data with
  | none => ""
  | some i =>
    if 0 < i ∧ i < name.data.length - 1 then String.mk (name.data.drop i) else ""

/-- The characters after the last `/` of a character list, if the list
contains a `/` at all. -/
def afterSlash : List Char → Option (List Char)
  | [] => none
  | c :: cs =>
    match afterSlash cs with
    | some r => some r
    | none => if c = '/' then some cs else none

/-- Python `Path(p).name`: the final path component, i.e. what follows
the last `/` (the whole string when there is no `/`). -/
def pyBasename (p : String) : String :=
  String.mk ((afterSlash p.data).getD p.data)

/-- The grace period: `timedelta(hours=24)` of the source, in seconds. -/
def gracePeriod : Int := 24 * 3600

/-- The filesystem visible to the program: a finite map from absolute file
path to content. -/
abbrev Filesystem := List (String × String)

/-- Observable outcome of one `organize_file` call: early return because
the source file no longer exists, a logged successful move, or a logged
error from the `except` branch. -/
inductive MoveResult where
  | skipped : MoveResult
  | moved : MoveResult
  | failed : MoveResult
deriving DecidableEq, Repr

/-- The mutable state of the `FileOrganizer` handler: the watched
directory path and the `pending_files` dict from path to first-seen
timestamp. -/
structure FileOrganizer where
  downloads_path : String
  pending_files : List (String × Int)
deriving Repr

/-- Destination path computed by `organize_file` for a source path:
`downloads_path / category / file.name`. -/
def destOf (dp : String) (file_path : String) : String :=
  dp ++ "/" ++ classifyExt (pySuffix (pyBasename file_path)) ++ "/" ++ pyBasename file_path

/-- `organize_file` (lines 74–96): if the source no longer exists, return
early (success-as-no-op); otherwise classify by `file.suffix.lower()`,
ensure the category folder exists (folder creation is not part of the
flat file map) and `shutil.move` the file to
`downloads_path / category / file.name`.  A move on which the primitive
raises (oracle `moveRaises`) leaves the filesystem unchanged and is
logged by the `except` branch; a successful `shutil.move` removes the
source binding and writes the destination binding, silently replacing any
existing file at the destination (POSIX `os.rename` semantics). -/
def organize_file (dp : String) (moveRaises : String → Bool)
    (fs : Filesystem) (file_path : String) : Filesystem × MoveResult :=
  match dictLookup fs file_path with
  | none => (fs, MoveResult.skipped)
  | some content =>
    if moveRaises file_path then
      (fs, MoveResult.failed)
    else
      (dictInsert (dictRemove fs file_path) (destOf dp file_path) content,
       MoveResult.moved)

/-- The `for file_path, creation_time in self.pending_files.items()` loop
of `process_pending_files` (lines 65–68), threading the filesystem and
accumulating `files_to_remove` together with the per-file outcome, in
iteration order. -/
def sweepLoop (dp : String) (now : Int) (moveRaises : String → Bool)
    (fs : Filesystem) :
    List (String × Int) → Filesystem × List String × List (String × MoveResult)
  | [] => (fs, [], [])
  | (file_path, creation_time) :: rest =>
    if now - creation_time ≥ gracePeriod then
      let r := organize_file dp moveRaises fs file_path
      let t := sweepLoop dp now moveRaises r.1 rest
      (t.1, file_path :: t.2.1, (file_path, r.2) :: t.2.2)
    else sweepLoop dp now moveRaises fs rest

/-- `process_pending_files` (lines 60–72): walk the pending dict once,
organizing every entry whose age `current_time - creation_time` has
reached 24 hours and recording it in `files_to_remove`; then delete every
recorded path from `pending_files`.  Returns the updated handler state,
the updated filesystem and the per-file outcome log of this sweep. -/
def process_pending_files (now : Int) (moveRaises : String → Bool)
    (fo : FileOrganizer) (fs : Filesystem) :
    FileOrganizer × Filesystem × List (String × MoveResult) :=
  let r := sweepLoop fo.downloads_path now moveRaises fs fo.pending_files
  ({ fo with
     pending_files := r.2.1.foldl (fun d p => dictRemove d p) fo.pending_files },
   r.1, r.2.2)

/-- A filesystem `created` event as delivered to the handler: the flag the
handler checks and the source path. -/
structure FsEvent where
  is_directory : Bool
  src_path : String

/-- `on_created` (lines 53–58): for a non-directory event, set
`pending_files[event.src_path] = datetime.now()` (a plain dict
assignment). -/
def on_created (now : Int) (fo : FileOrganizer) (event : FsEvent) : FileOrganizer :=
  if event.is_directory then fo
  else { fo with pending_files := dictInsert fo.pending_files event.src_path now }

/-- `process_existing_files` (lines 42–51): for every regular file
directly under the watched directory — given here as `listing`, the
`glob('*')` results filtered by `is_file()` paired with their on-disk
`st_ctime` — set `pending_files[str(file_path)] = creation_time`. -/
def process_existing_files (listing : List (String × Int))
    (fo : FileOrganizer) : FileOrganizer :=
  { fo with
    pending_files := listing.foldl (fun d e => dictInsert d e.1 e.2) fo.pending_files }

/-- `FileOrganizer.__init__` (lines 36–40): start with an empty
`pending_files` dict and run the startup scan. -/
def mkFileOrganizer (downloads_path : String)
    (listing : List (String × Int)) : FileOrganizer :=
  process_existing_files listing { downloads_path := downloads_path, pending_files := [] }

/-- Non-interference of the other pending entries with a distinguished
path `p`: no other pending path coincides with `p`'s destination, and no
other pending path's destination coincides with `p` or with `p`'s
destination.  This holds in every reachable configuration, where pending
paths are direct children `dp/name` of the watched directory while
destinations `dp/category/name` live one level deeper. -/
def NoInterference (dp p : String) (l : List (String × Int)) : Prop :=
  ∀ e ∈ l, e.1 ≠ p →
    e.1 ≠ destOf dp p ∧ destOf dp e.1 ≠ p ∧ destOf dp e.1 ≠ destOf dp p

instance (dp p : String) (l : List (String × Int)) :
    Decidable (NoInterference dp p l) := by
  unfold NoInterference
  infer_instance

@[simp] theorem dictKeys_nil {α : Type} : dictKeys ([] : List (String × α)) = [] := rfl

@[simp] theorem dictKeys_cons {α : Type} (e : String × α) (d : List (String × α)) :
    dictKeys (e :: d) = e.1 :: dictKeys d := rfl

@[simp] theorem dictLookup_nil {α : Type} (k : String) :
    dictLookup ([] : List (String × α)) k = none := rfl

theorem dictLookup_cons {α : Type} (e : String × α) (d : List (String × α)) (k : String) :
    dictLookup (e :: d) k = if e.1 = k then some e.2 else dictLookup d k := rfl

theorem dictInsert_cons {α : Type} (e : String × α) (d : List (String × α)) (k : String) (v : α) :
    dictInsert (e :: d) k v = if e.1 = k then (k, v) :: d else e :: dictInsert d k v := rfl

theorem dictRemove_cons {α : Type} (e : String × α) (d : List (String × α)) (k : String) :
    dictRemove (e :: d) k = if e.1 = k then dictRemove d k else e :: dictRemove d k := rfl

theorem dictLookup_insert_self {α : Type} (d : List (String × α)) (k : String) (v : α) :
    dictLookup (dictInsert d k v) k = some v := by
  induction d with
  | nil => simp [dictInsert, dictLookup]
  | cons e d ih =>
    by_cases h : e.1 = k
    · rw [dictInsert_cons, if_pos h, dictLookup_cons, if_pos rfl]
    · rw [dictInsert_cons, if_neg h, dictLookup_cons, if_neg h, ih]

theorem dictLookup_insert_ne {α : Type} (d : List (String × α)) (k k' : String) (v : α)
    (h : k' ≠ k) : dictLookup (dictInsert d k v) k' = dictLookup d k' := by
  induction d with
  | nil => simp [dictInsert, dictLookup_cons, if_neg (Ne.symm h)]
  | cons e d ih =>
    by_cases he : e.1 = k
    · have hek' : e.1 ≠ k' := fun hc => h (hc.symm.trans he)
      rw [dictInsert_cons, if_pos he, dictLookup_cons, if_neg (Ne.symm h),
        dictLookup_cons, if_neg hek']
    · rw [dictInsert_cons, if_neg he, dictLookup_cons, dictLookup_cons, ih]

theorem dictLookup_remove_self {α : Type} (d : List (String × α)) (k : String) :
    dictLookup (dictRemove d k) k = none := by
  induction d with
  | nil => rfl
  | cons e d ih =>
    by_cases h : e.1 = k
    · rw [dictRemove_cons, if_pos h, ih]
    · rw [dictRemove_cons, if_neg h, dictLookup_cons, if_neg h, ih]

theorem dictLookup_remove_ne {α : Type} (d : List (String × α)) (k k' : String)
    (h : k' ≠ k) : dictLookup (dictRemove d k) k' = dictLookup d k' := by
  induction d with
  | nil => rfl
  | cons e d ih =>
    by_cases he : e.1 = k
    · have hek' : e.1 ≠ k' := fun hc => h (hc.symm.trans he)
      rw [dictRemove_cons, if_pos he, ih, dictLookup_cons, if_neg hek']
    · rw [dictRemove_cons, if_neg he, dictLookup_cons, dictLookup_cons, ih]

theorem mem_dictKeys_insert {α : Type} (d : List (String × α)) (k k' : String) (v : α) :
    k' ∈ dictKeys (dictInsert d k v) ↔ k' = k ∨ k' ∈ dictKeys d := by
  induction d with
  | nil => simp [dictInsert]
  | cons e d ih =>
    by_cases he : e.1 = k
    · rw [dictInsert_cons, if_pos he]
      simp only [dictKeys_cons, List.mem_cons, he]
      tauto
    · rw [dictInsert_cons, if_neg he]
      simp only [dictKeys_cons, List.mem_cons, ih]
      tauto

theorem dictKeys_insert_nodup {α : Type} (d : List (String × α)) (k : String) (v : α)
    (h : (dictKeys d).Nodup) : (dictKeys (dictInsert d k v)).Nodup := by
  induction d with
  | nil => simp [dictInsert]
  | cons e d ih =>
    simp only [dictKeys_cons, List.nodup_cons] at h
    by_cases he : e.1 = k
    · rw [dictInsert_cons, if_pos he]
      simp only [dictKeys_cons, List.nodup_cons]
      exact ⟨he ▸ h.1, h.2⟩
    · rw [dictInsert_cons, if_neg he]
      simp only [dictKeys_cons, List.nodup_cons]
      refine ⟨fun hmem => ?_, ih h.2⟩
      rcases (mem_dictKeys_insert d k e.1 v).mp hmem with h1 | h2
      · exact he h1
      · exact h.1 h2

theorem mem_dictRemove_of_ne {α : Type} (d : List (String × α)) (k : String)
    (p : String × α) (hmem : p ∈ d) (hne : p.1 ≠ k) : p ∈ dictRemove d k := by
  induction d with
  | nil => simp at hmem
  | cons e d ih =>
    rcases List.mem_cons.mp hmem with h | h
    · subst h
      rw [dictRemove_cons, if_neg hne]
      exact List.mem_cons_self _ _
    · by_cases he : e.1 = k
      · rw [dictRemove_cons, if_pos he]; exact ih h
      · rw [dictRemove_cons, if_neg he]; exact List.mem_cons_of_mem _ (ih h)

theorem mem_dictKeys_remove {α : Type} (d : List (String × α)) (k k' : String)
    (h : k' ∈ dictKeys (dictRemove d k)) : k' ∈ dictKeys d := by
  induction d with
  | nil => simp [dictRemove] at h
  | cons e d ih =>
    by_cases he : e.1 = k
    · rw [dictRemove_cons, if_pos he] at h
      exact List.mem_cons_of_mem _ (ih h)
    · rw [dictRemove_cons, if_neg he] at h
      simp only [dictKeys_cons, List.mem_cons] at h ⊢
      rcases h with h | h
      · exact Or.inl h
      · exact Or.inr (ih h)

theorem not_mem_dictKeys_remove_self {α : Type} (d : List (String × α)) (k : String) :
    k ∉ dictKeys (dictRemove d k) := by
  induction d with
  | nil => simp [dictRemove]
  | cons e d ih =>
    by_cases he : e.1 = k
    · rw [dictRemove_cons, if_pos he]; exact ih
    · rw [dictRemove_cons, if_neg he]
      simp only [dictKeys_cons, List.mem_cons, not_or]
      exact ⟨fun hc => he hc.symm, ih⟩

theorem foldl_dictRemove_mem {α : Type} (rs : List String) (d : List (String × α))
    (p : String × α) (hmem : p ∈ d) (hnot : p.1 ∉ rs) :
    p ∈ rs.foldl (fun d k => dictRemove d k) d := by
  induction rs generalizing d with
  | nil => simpa
  | cons r rs ih =>
    simp only [List.mem_cons, not_or] at hnot
    exact ih (dictRemove d r) (mem_dictRemove_of_ne d r p hmem hnot.1) hnot.2

theorem foldl_dictRemove_not_mem_aux {α : Type} (rs : List String) (d : List (String × α))
    (p : String) (h : p ∉ dictKeys d) :
    p ∉ dictKeys (rs.foldl (fun d k => dictRemove d k) d) := by
  induction rs generalizing d with
  | nil => simpa
  | cons r rs ih =>
    exact ih (dictRemove d r) (fun hc => h (mem_dictKeys_remove d r p hc))

theorem foldl_dictRemove_not_mem {α : Type} (rs : List String) (d : List (String × α))
    (p : String) (h : p ∈ rs) :
    p ∉ dictKeys (rs.foldl (fun d k => dictRemove d k) d) := by
  induction rs generalizing d with
  | nil => simp at h
  | cons r rs ih =>
    rcases List.mem_cons.mp h with h | h
    · subst h
      exact foldl_dictRemove_not_mem_aux rs (dictRemove d p) p
        (not_mem_dictKeys_remove_self d p)
    · exact ih (dictRemove d r) h

theorem dictLookup_eq_some_of_mem {α : Type} (d : List (String × α))
    (p : String × α) (hnd : (dictKeys d).Nodup) (hmem : p ∈ d) :
    dictLookup d p.1 = some p.2 := by
  induction d with
  | nil => simp at hmem
  | cons e d ih =>
    simp only [dictKeys_cons, List.nodup_cons] at hnd
    rcases List.mem_cons.mp hmem with h | h
    · subst h
      rw [dictLookup_cons, if_pos rfl]
    · have hne : e.1 ≠ p.1 := fun hc => hnd.1 (hc ▸ List.mem_map_of_mem (·.1) h)
      rw [dictLookup_cons, if_neg hne, ih hnd.2 h]

theorem mem_of_dictLookup_eq_some {α : Type} (d : List (String × α))
    (k : String) (v : α) (h : dictLookup d k = some v) : (k, v) ∈ d := by
  induction d with
  | nil => simp at h
  | cons e d ih =>
    obtain ⟨a, b⟩ := e
    by_cases he : a = k
    · subst he
      rw [dictLookup_cons, if_pos rfl, Option.some_inj] at h
      subst h
      exact List.mem_cons_self _ _
    · rw [dictLookup_cons, if_neg he] at h
      exact List.mem_cons_of_mem _ (ih h)

theorem organize_file_preserve (dp : String) (mr : String → Bool) (fs : Filesystem)
    (path x : String) (hx1 : x ≠ path) (hx2 : x ≠ destOf dp path) :
    dictLookup (organize_file dp mr fs path).1 x = dictLookup fs x := by
  unfold organize_file
  cases h : dictLookup fs path with
  | none => rfl
  | some c =>
    by_cases hm : mr path
    · simp [hm]
    · simp [hm, dictLookup_insert_ne _ _ _ _ hx2, dictLookup_remove_ne _ _ _ hx1]

theorem sweepLoop_toRemove (dp : String) (now : Int) (mr : String → Bool)
    (fs : Filesystem) (l : List (String × Int)) :
    (sweepLoop dp now mr fs l).2.1
      = (l.filter (fun e => now - e.2 ≥ gracePeriod)).map (·.1) := by
  induction l generalizing fs with
  | nil => rfl
  | cons e rest ih =>
    obtain ⟨a, b⟩ := e
    by_cases hc : now - b ≥ gracePeriod <;>
      simp [sweepLoop, hc, ih]

theorem sweepLoop_log_keys (dp : String) (now : Int) (mr : String → Bool)
    (fs : Filesystem) (l : List (String × Int)) :
    (sweepLoop dp now mr fs l).2.2.map (·.1) = (sweepLoop dp now mr fs l).2.1 := by
  induction l generalizing fs with
  | nil => rfl
  | cons e rest ih =>
    obtain ⟨a, b⟩ := e
    by_cases hc : now - b ≥ gracePeriod <;>
      simp [sweepLoop, hc, ih]

theorem sweepLoop_fs_preserve (dp : String) (now : Int) (mr : String → Bool)
    (fs : Filesystem) (l : List (String × Int)) (x : String)
    (hx : ∀ e ∈ l, e.1 ≠ x ∧ destOf dp e.1 ≠ x) :
    dictLookup (sweepLoop dp now mr fs l).1 x = dictLookup fs x := by
  induction l generalizing fs with
  | nil => rfl
  | cons e rest ih =>
    obtain ⟨a, b⟩ := e
    have he := hx (a, b) (List.mem_cons_self _ _)
    have hrest : ∀ e ∈ rest, e.1 ≠ x ∧ destOf dp e.1 ≠ x :=
      fun q hq => hx q (List.mem_cons_of_mem _ hq)
    by_cases hc : now - b ≥ gracePeriod
    · simp only [sweepLoop, if_pos hc]
      rw [ih _ hrest, organize_file_preserve dp mr fs a x (Ne.symm he.1) (Ne.symm he.2)]
    · simp only [sweepLoop, if_neg hc]
      exact ih fs hrest

theorem sweepLoop_log_filter_nil (dp : String) (now : Int) (mr : String → Bool)
    (fs : Filesystem) (l : List (String × Int)) (p : String)
    (hp : p ∉ dictKeys l) :
    (sweepLoop dp now mr fs l).2.2.filter (fun e => e.1 = p) = [] := by
  induction l generalizing fs with
  | nil => rfl
  | cons e rest ih =>
    obtain ⟨a, b⟩ := e
    simp only [dictKeys_cons, List.mem_cons, not_or] at hp
    by_cases hc : now - b ≥ gracePeriod
    · simp only [sweepLoop, if_pos hc, List.filter_cons]
      rw [if_neg (by simpa using fun hc' => hp.1 hc'.symm)]
      exact ih _ hp.2
    · simp only [sweepLoop, if_neg hc]
      exact ih fs hp.2

theorem mem_sweepLoop_toRemove (dp : String) (now : Int) (mr : String → Bool)
    (fs : Filesystem) (l : List (String × Int)) (p : String) (t : Int)
    (hmem : (p, t) ∈ l) (hage : now - t ≥ gracePeriod) :
    p ∈ (sweepLoop dp now mr fs l).2.1 := by
  rw [sweepLoop_toRemove]
  exact List.mem_map_of_mem _ (List.mem_filter.mpr ⟨hmem, by simpa using hage⟩)

theorem not_mem_sweepLoop_toRemove (dp : String) (now : Int) (mr : String → Bool)
    (fs : Filesystem) (l : List (String × Int)) (p : String) (t : Int)
    (hnd : (dictKeys l).Nodup) (hmem : (p, t) ∈ l) (hage : ¬now - t ≥ gracePeriod) :
    p ∉ (sweepLoop dp now mr fs l).2.1 := by
  rw [sweepLoop_toRemove]
  intro hc
  rcases List.mem_map.mp hc with ⟨e, hef, hep⟩
  have hel := List.mem_filter.mp hef
  have h1 : dictLookup l p = some t :=
    dictLookup_eq_some_of_mem l (p, t) hnd hmem
  have h2 : dictLookup l p = some e.2 := by
    have := dictLookup_eq_some_of_mem l e hnd hel.1
    rwa [hep] at this
  have : e.2 = t := by
    rw [h1] at h2
    exact (Option.some_inj.mp h2).symm
  exact hage (this ▸ (by simpa using hel.2))

theorem sweepLoop_entry_moved (dp : String) (now : Int) (mr : String → Bool)
    (p : String) (t : Int) (c : String)
    (hage : now - t ≥ gracePeriod) (hok : mr p = false) (hdp : destOf dp p ≠ p) :
    ∀ (l : List (String × Int)) (fs : Filesystem),
      (dictKeys l).Nodup → (p, t) ∈ l → NoInterference dp p l →
      dictLookup fs p = some c →
      dictLookup (sweepLoop dp now mr fs l).1 (destOf dp p) = some c ∧
      dictLookup (sweepLoop dp now mr fs l).1 p = none ∧
      (sweepLoop dp now mr fs l).2.2.filter (fun e => e.1 = p) = [(p, MoveResult.moved)] := by
  intro l
  induction l with
  | nil =>
    intro fs _ hmem _ _
    simp at hmem
  | cons e rest ih =>
    intro fs hnd hmem hni hsrc
    obtain ⟨a, b⟩ := e
    simp only [dictKeys_cons, List.nodup_cons] at hnd
    have hni' : NoInterference dp p rest :=
      fun q hq hqp => hni q (List.mem_cons_of_mem _ hq) hqp
    by_cases hep : a = p
    · subst hep
      have hbt : b = t := by
        rcases List.mem_cons.mp hmem with h | h
        · exact ((Prod.mk.injEq _ _ _ _).mp h.symm).2
        · exact absurd (List.mem_map_of_mem (·.1) h) hnd.1
      subst hbt
      have hpn : a ∉ dictKeys rest := hnd.1
      have hqp : ∀ q ∈ rest, q.1 ≠ a :=
        fun q hq hc => hpn (hc ▸ List.mem_map_of_mem (·.1) hq)
      have hrest_p : ∀ q ∈ rest, q.1 ≠ a ∧ destOf dp q.1 ≠ a :=
        fun q hq => ⟨hqp q hq, (hni q (List.mem_cons_of_mem _ hq) (hqp q hq)).2.1⟩
      have hrest_dest : ∀ q ∈ rest, q.1 ≠ destOf dp a ∧ destOf dp q.1 ≠ destOf dp a :=
        fun q hq => ⟨(hni q (List.mem_cons_of_mem _ hq) (hqp q hq)).1,
          (hni q (List.mem_cons_of_mem _ hq) (hqp q hq)).2.2⟩
      have horg : organize_file dp mr fs a
          = (dictInsert (dictRemove fs a) (destOf dp a) c, MoveResult.moved) := by
        unfold organize_file
        rw [hsrc, hok]
        simp
      simp only [sweepLoop, if_pos hage, horg]
      refine ⟨?_, ?_, ?_⟩
      · rw [sweepLoop_fs_preserve dp now mr _ rest (destOf dp a) hrest_dest]
        exact dictLookup_insert_self _ _ _
      · rw [sweepLoop_fs_preserve dp now mr _ rest a hrest_p]
        rw [dictLookup_insert_ne _ _ _ _ (Ne.symm hdp)]
        exact dictLookup_remove_self _ _
      · rw [List.filter_cons]
        rw [if_pos (by simp)]
        rw [sweepLoop_log_filter_nil dp now mr _ rest a hpn]
    · have hmem' : (p, t) ∈ rest := by
        rcases List.mem_cons.mp hmem with h | h
        · exact absurd ((Prod.mk.injEq _ _ _ _).mp h).1.symm hep
        · exact h
      have he := hni (a, b) (List.mem_cons_self _ _) hep
      by_cases hc : now - b ≥ gracePeriod
      · simp only [sweepLoop, if_pos hc]
        have hsrc' : dictLookup (organize_file dp mr fs a).1 p = some c := by
          rw [organize_file_preserve dp mr fs a p (Ne.symm hep) (Ne.symm he.2.1)]
          exact hsrc
        have hres := ih (organize_file dp mr fs a).1 hnd.2 hmem' hni' hsrc'
        refine ⟨hres.1, hres.2.1, ?_⟩
        rw [List.filter_cons, if_neg (by simpa using hep), hres.2.2]
      · simp only [sweepLoop, if_neg hc]
        exact ih fs hnd.2 hmem' hni' hsrc

theorem sweepLoop_entry_failed (dp : String) (now : Int) (mr : String → Bool)
    (p : String) (t : Int) (c : String)
    (hage : now - t ≥ gracePeriod) (hfail : mr p = true) :
    ∀ (l : List (String × Int)) (fs : Filesystem),
      (dictKeys l).Nodup → (p, t) ∈ l → NoInterference dp p l →
      dictLookup fs p = some c →
      dictLookup (sweepLoop dp now mr fs l).1 p = some c ∧
      (sweepLoop dp now mr fs l).2.2.filter (fun e => e.1 = p) = [(p, MoveResult.failed)] := by
  intro l
  induction l with
  | nil =>
    intro fs _ hmem _ _
    simp at hmem
  | cons e rest ih =>
    intro fs hnd hmem hni hsrc
    obtain ⟨a, b⟩ := e
    simp only [dictKeys_cons, List.nodup_cons] at hnd
    have hni' : NoInterference dp p rest :=
      fun q hq hqp => hni q (List.mem_cons_of_mem _ hq) hqp
    by_cases hep : a = p
    · subst hep
      have hbt : b = t := by
        rcases List.mem_cons.mp hmem with h | h
        · exact ((Prod.mk.injEq _ _ _ _).mp h.symm).2
        · exact absurd (List.mem_map_of_mem (·.1) h) hnd.1
      subst hbt
      have hpn : a ∉ dictKeys rest := hnd.1
      have hqp : ∀ q ∈ rest, q.1 ≠ a :=
        fun q hq hc => hpn (hc ▸ List.mem_map_of_mem (·.1) hq)
      have hrest_p : ∀ q ∈ rest, q.1 ≠ a ∧ destOf dp q.1 ≠ a :=
        fun q hq => ⟨hqp q hq, (hni q (List.mem_cons_of_mem _ hq) (hqp q hq)).2.1⟩
      have horg : organize_file dp mr fs a = (fs, MoveResult.failed) := by
        unfold organize_file
        rw [hsrc, hfail]
        simp
      simp only [sweepLoop, if_pos hage, horg]
      refine ⟨?_, ?_⟩
      · rw [sweepLoop_fs_preserve dp now mr _ rest a hrest_p]
        exact hsrc
      · rw [List.filter_cons]
        rw [if_pos (by simp)]
        rw [sweepLoop_log_filter_nil dp now mr _ rest a hpn]
    · have hmem' : (p, t) ∈ rest := by
        rcases List.mem_cons.mp hmem with h | h
        · exact absurd ((Prod.mk.injEq _ _ _ _).mp h).1.symm hep
        · exact h
      have he := hni (a, b) (List.mem_cons_self _ _) hep
      by_cases hc : now - b ≥ gracePeriod
      · simp only [sweepLoop, if_pos hc]
        have hsrc' : dictLookup (organize_file dp mr fs a).1 p = some c := by
          rw [organize_file_preserve dp mr fs a p (Ne.symm hep) (Ne.symm he.2.1)]
          exact hsrc
        have hres := ih (organize_file dp mr fs a).1 hnd.2 hmem' hni' hsrc'
        refine ⟨hres.1, ?_⟩
        rw [List.filter_cons, if_neg (by simpa using hep), hres.2]
      · simp only [sweepLoop, if_neg hc]
        exact ih fs hnd.2 hmem' hni' hsrc

theorem sweepLoop_entry_skipped (dp : String) (now : Int) (mr : String → Bool)
    (p : String) (t : Int)
    (hage : now - t ≥ gracePeriod) :
    ∀ (l : List (String × Int)) (fs : Filesystem),
      (dictKeys l).Nodup → (p, t) ∈ l → NoInterference dp p l →
      dictLookup fs p = none →
      dictLookup (sweepLoop dp now mr fs l).1 p = none ∧
      (sweepLoop dp now mr fs l).2.2.filter (fun e => e.1 = p) = [(p, MoveResult.skipped)] := by
  intro l
  induction l with
  | nil =>
    intro fs _ hmem _ _
    simp at hmem
  | cons e rest ih =>
    intro fs hnd hmem hni hsrc
    obtain ⟨a, b⟩ := e
    simp only [dictKeys_cons, List.nodup_cons] at hnd
    have hni' : NoInterference dp p rest :=
      fun q hq hqp => hni q (List.mem_cons_of_mem _ hq) hqp
    by_cases hep : a = p
    · subst hep
      have hbt : b = t := by
        rcases List.mem_cons.mp hmem with h | h
        · exact ((Prod.mk.injEq _ _ _ _).mp h.symm).2
        · exact absurd (List.mem_map_of_mem (·.1) h) hnd.1
      subst hbt
      have hpn : a ∉ dictKeys rest := hnd.1
      have hqp : ∀ q ∈ rest, q.1 ≠ a :=
        fun q hq hc => hpn (hc ▸ List.mem_map_of_mem (·.1) hq)
      have hrest_p : ∀ q ∈ rest, q.1 ≠ a ∧ destOf dp q.1 ≠ a :=
        fun q hq => ⟨hqp q hq, (hni q (List.mem_cons_of_mem _ hq) (hqp q hq)).2.1⟩
      have horg : organize_file dp mr fs a = (fs, MoveResult.skipped) := by
        unfold organize_file
        rw [hsrc]
      simp only [sweepLoop, if_pos hage, horg]
      refine ⟨?_, ?_⟩
      · rw [sweepLoop_fs_preserve dp now mr _ rest a hrest_p]
        exact hsrc
      · rw [List.filter_cons]
        rw [if_pos (by simp)]
        rw [sweepLoop_log_filter_nil dp now mr _ rest a hpn]
    · have hmem' : (p, t) ∈ rest := by
        rcases List.mem_cons.mp hmem with h | h
        · exact absurd ((Prod.mk.injEq _ _ _ _).mp h).1.symm hep
        · exact h
      have he := hni (a, b) (List.mem_cons_self _ _) hep
      by_cases hc : now - b ≥ gracePeriod
      · simp only [sweepLoop, if_pos hc]
        have hsrc' : dictLookup (organize_file dp mr fs a).1 p = none := by
          rw [organize_file_preserve dp mr fs a p (Ne.symm hep) (Ne.symm he.2.1)]
          exact hsrc
        have hres := ih (organize_file dp mr fs a).1 hnd.2 hmem' hni' hsrc'
        refine ⟨hres.1, ?_⟩
        rw [List.filter_cons, if_neg (by simpa using hep), hres.2]
      · simp only [sweepLoop, if_neg hc]
        exact ih fs hnd.2 hmem' hni' hsrc

theorem lastDotIdx_none (l : List Char) (h : ∀ ch ∈ l, ch ≠ '.') :
    lastDotIdx l = none := by
  induction l with
  | nil => rfl
  | cons c cs ih =>
    have hc : c ≠ '.' := h c (List.mem_cons_self _ _)
    have := ih (fun ch hch => h ch (List.mem_cons_of_mem _ hch))
    simp [lastDotIdx, this, hc]

theorem lastDotIdx_append_some (l r : List Char) (j : Nat)
    (h : lastDotIdx r = some j) :
    lastDotIdx (l ++ r) = some (l.length + j) := by
  induction l with
  | nil => simpa using h
  | cons c cs ih =>
    rw [List.cons_append, lastDotIdx, ih, List.length_cons]
    show some (cs.length + j + 1) = some (cs.length + 1 + j)
    congr 1
    omega

theorem pySuffix_append (stem ext : String)
    (hstem : stem ≠ "") (hext : ext ≠ "")
    (hnd : ∀ ch ∈ ext.data, ch ≠ '.') :
    pySuffix (stem ++ "." ++ ext) = "." ++ ext := by
  have hsd : stem.data ≠ [] := fun hc => hstem (String.ext hc)
  have hed : ext.data ≠ [] := fun hc => hext (String.ext hc)
  have hdata : (stem ++ "." ++ ext).data = stem.data ++ ('.' :: ext.data) := by
    rw [String.data_append, String.data_append]
    simp
  have hdot : lastDotIdx ('.' :: ext.data) = some 0 := by
    simp [lastDotIdx, lastDotIdx_none ext.data hnd]
  have hidx : lastDotIdx (stem ++ "." ++ ext).data = some (stem.data.length + 0) := by
    rw [hdata]
    exact lastDotIdx_append_some _ _ 0 hdot
  have hcond : 0 < stem.data.length + 0 ∧
      stem.data.length + 0 < (stem ++ "." ++ ext).data.length - 1 := by
    rw [hdata, List.length_append, List.length_cons]
    have h1 : 0 < stem.data.length := List.length_pos.mpr hsd
    have h2 : 0 < ext.data.length := List.length_pos.mpr hed
    omega
  rw [pySuffix, hidx]
  simp only [if_pos hcond]
  apply String.ext
  rw [hdata, Nat.add_zero, List.drop_left, String.data_append]
  simp

theorem foldl_dictInsert_lookup_not_mem {α : Type} (l : List (String × α))
    (d : List (String × α)) (p : String) (hp : p ∉ l.map (·.1)) :
    dictLookup (l.foldl (fun d e => dictInsert d e.1 e.2) d) p = dictLookup d p := by
  induction l generalizing d with
  | nil => rfl
  | cons e rest ih =>
    simp only [List.map_cons, List.mem_cons, not_or] at hp
    rw [List.foldl_cons, ih _ hp.2, dictLookup_insert_ne _ _ _ _ hp.1]

theorem foldl_dictInsert_lookup {α : Type} (l : List (String × α))
    (d : List (String × α)) (p : String) (v : α)
    (hnd : (l.map (·.1)).Nodup) (hmem : (p, v) ∈ l) :
    dictLookup (l.foldl (fun d e => dictInsert d e.1 e.2) d) p = some v := by
  induction l generalizing d with
  | nil => simp at hmem
  | cons e rest ih =>
    simp only [List.map_cons, List.nodup_cons] at hnd
    rcases List.mem_cons.mp hmem with h | h
    · subst h
      rw [List.foldl_cons,
        foldl_dictInsert_lookup_not_mem rest _ p hnd.1]
      exact dictLookup_insert_self _ _ _
    · rw [List.foldl_cons]
      exact ih _ hnd.2 h

/-- C1: an entry whose age `now - t` is still below the 24-hour grace
period when a sweep runs is not handed to the mover (no log entry for it)
and survives the sweep in the registry with its timestamp intact; since
this holds for every registry state, no file is ever moved before its
grace period has elapsed. -/
theorem C1_sweep_never_moves_before_grace (now : Int) (mr : String → Bool)
    (fo : FileOrganizer) (fs : Filesystem) (p : String) (t : Int)
    (hnd : (dictKeys fo.pending_files).Nodup)
    (hmem : (p, t) ∈ fo.pending_files)
    (hage : now - t < gracePeriod) :
    (p, t) ∈ (process_pending_files now mr fo fs).1.pending_files ∧
    p ∉ (process_pending_files now mr fo fs).2.2.map (·.1) := by
  have hnotrem : p ∉ (sweepLoop fo.downloads_path now mr fs fo.pending_files).2.1 :=
    not_mem_sweepLoop_toRemove _ _ _ _ _ _ _ hnd hmem (by omega)
  constructor
  · exact foldl_dictRemove_mem _ _ _ hmem hnotrem
  · show p ∉ (sweepLoop fo.downloads_path now mr fs fo.pending_files).2.2.map (·.1)
    rw [sweepLoop_log_keys]
    exact hnotrem

/-- Witness for C1 at a concrete state: a file seen 100 seconds ago is
neither logged nor dropped by the sweep. -/
theorem C1_sweep_never_moves_before_grace_witness :
    ("/d/a.txt", (0 : Int)) ∈ (process_pending_files 100 (fun _ => false)
        { downloads_path := "/d", pending_files := [("/d/a.txt", 0)] }
        [("/d/a.txt", "x")]).1.pending_files ∧
    "/d/a.txt" ∉ (process_pending_files 100 (fun _ => false)
        { downloads_path := "/d", pending_files := [("/d/a.txt", 0)] }
        [("/d/a.txt", "x")]).2.2.map (·.1) :=
  C1_sweep_never_moves_before_grace 100 (fun _ => false)
    { downloads_path := "/d", pending_files := [("/d/a.txt", 0)] }
    [("/d/a.txt", "x")] "/d/a.txt" 0 (by decide) (by decide) (by decide)

/-- C2 counterexample: re-delivering a creation notification for a path
already pending with first-seen time 0 is not a no-op — afterwards the
registry maps the path to the new time 5, not to the original 0. -/
theorem C2_reinsertion_not_noop :
    dictLookup (on_created 5
        { downloads_path := "/d", pending_files := [("/d/a", 0)] }
        { is_directory := false, src_path := "/d/a" }).pending_files "/d/a"
      ≠ some 0 ∧
    dictLookup (on_created 5
        { downloads_path := "/d", pending_files := [("/d/a", 0)] }
        { is_directory := false, src_path := "/d/a" }).pending_files "/d/a"
      = some 5 := by
  constructor
  · decide
  · rfl

/-- C2 (amended): a repeated creation notification for an
already-pending path overwrites its first-seen timestamp with the new
notification time (last write wins); the path still appears at most once
in the registry. -/
theorem C2_reinsertion_last_write_wins (now t : Int) (fo : FileOrganizer)
    (ev : FsEvent)
    (hdir : ev.is_directory = false)
    (hmem : (ev.src_path, t) ∈ fo.pending_files)
    (hnd : (dictKeys fo.pending_files).Nodup) :
    dictLookup (on_created now fo ev).pending_files ev.src_path = some now ∧
    (dictKeys (on_created now fo ev).pending_files).Nodup := by
  unfold on_created
  rw [hdir]
  simp only [Bool.false_eq_true, if_false]
  exact ⟨dictLookup_insert_self _ _ _, dictKeys_insert_nodup _ _ _ hnd⟩

/-- Witness for the amended C2 at a concrete state. -/
theorem C2_reinsertion_last_write_wins_witness :
    dictLookup (on_created 5
        { downloads_path := "/d", pending_files := [("/d/a", 0)] }
        { is_directory := false, src_path := "/d/a" }).pending_files "/d/a"
      = some 5 ∧
    (dictKeys (on_created 5
        { downloads_path := "/d", pending_files := [("/d/a", 0)] }
        { is_directory := false, src_path := "/d/a" }).pending_files).Nodup :=
  C2_reinsertion_last_write_wins 5 0
    { downloads_path := "/d", pending_files := [("/d/a", 0)] }
    { is_directory := false, src_path := "/d/a" }
    (by decide) (by decide) (by decide)

/-- C3 counterexample: an eligible entry whose move raises (the oracle
fails every move; the source file exists) is logged as an error yet
deleted from the registry by the very same sweep, so it cannot be
retried by the next sweep. -/
theorem C3_failed_move_entry_still_removed :
    (process_pending_files 86400 (fun _ => true)
        { downloads_path := "/d", pending_files := [("/d/a.txt", 0)] }
        [("/d/a.txt", "x")]).2.2 = [("/d/a.txt", MoveResult.failed)] ∧
    (process_pending_files 86400 (fun _ => true)
        { downloads_path := "/d", pending_files := [("/d/a.txt", 0)] }
        [("/d/a.txt", "x")]).1.pending_files = [] := by
  constructor <;> rfl

/-- C3 (amended): when the move of an eligible entry fails with an I/O
error, the failure is reported in the sweep's log and the source file is
left in place, but the entry is nevertheless removed from the registry,
so the following sweep does not process it again. -/
theorem C3_failed_move_logged_but_removed (now : Int) (mr : String → Bool)
    (fo : FileOrganizer) (fs : Filesystem) (p : String) (t : Int) (c : String)
    (hnd : (dictKeys fo.pending_files).Nodup)
    (hmem : (p, t) ∈ fo.pending_files)
    (hage : now - t ≥ gracePeriod)
    (hsrc : dictLookup fs p = some c)
    (hfail : mr p = true)
    (hni : NoInterference fo.downloads_path p fo.pending_files) :
    (process_pending_files now mr fo fs).2.2.filter (fun e => e.1 = p)
      = [(p, MoveResult.failed)] ∧
    dictLookup (process_pending_files now mr fo fs).2.1 p = some c ∧
    p ∉ dictKeys (process_pending_files now mr fo fs).1.pending_files := by
  have h := sweepLoop_entry_failed fo.downloads_path now mr p t c hage hfail
    fo.pending_files fs hnd hmem hni hsrc
  refine ⟨h.2, h.1, ?_⟩
  exact foldl_dictRemove_not_mem _ _ _
    (mem_sweepLoop_toRemove fo.downloads_path now mr fs fo.pending_files p t hmem hage)

/-- Witness for the amended C3 at a concrete state. -/
theorem C3_failed_move_logged_but_removed_witness :
    (process_pending_files 86400 (fun _ => true)
        { downloads_path := "/d", pending_files := [("/d/a.txt", 0)] }
        [("/d/a.txt", "x")]).2.2.filter (fun e => e.1 = "/d/a.txt")
      = [("/d/a.txt", MoveResult.failed)] ∧
    dictLookup (process_pending_files 86400 (fun _ => true)
        { downloads_path := "/d", pending_files := [("/d/a.txt", 0)] }
        [("/d/a.txt", "x")]).2.1 "/d/a.txt" = some "x" ∧
    "/d/a.txt" ∉ dictKeys (process_pending_files 86400 (fun _ => true)
        { downloads_path := "/d", pending_files := [("/d/a.txt", 0)] }
        [("/d/a.txt", "x")]).1.pending_files :=
  C3_failed_move_logged_but_removed 86400 (fun _ => true)
    { downloads_path := "/d", pending_files := [("/d/a.txt", 0)] }
    [("/d/a.txt", "x")] "/d/a.txt" 0 "x"
    (by decide) (by decide) (by decide) (by decide) (by decide) (by decide)

/-- C4: an entry whose age has reached the grace period and whose file
still exists (and whose move does not raise) is moved by a single sweep
exactly once — its one log entry is a successful move — into the
subdirectory of the watched directory named after its classified
category, preserving its base name; the source binding is gone (no
duplicate), the destination holds the original content (no loss), and
the entry is removed from the registry. -/
theorem C4_eligible_entry_moved_once (now : Int) (mr : String → Bool)
    (fo : FileOrganizer) (fs : Filesystem) (p : String) (t : Int) (c : String)
    (hnd : (dictKeys fo.pending_files).Nodup)
    (hmem : (p, t) ∈ fo.pending_files)
    (hage : now - t ≥ gracePeriod)
    (hsrc : dictLookup fs p = some c)
    (hok : mr p = false)
    (hni : NoInterference fo.downloads_path p fo.pending_files)
    (hdp : destOf fo.downloads_path p ≠ p) :
    dictLookup (process_pending_files now mr fo fs).2.1
        (fo.downloads_path ++ "/" ++ classifyExt (pySuffix (pyBasename p))
          ++ "/" ++ pyBasename p) = some c ∧
    dictLookup (process_pending_files now mr fo fs).2.1 p = none ∧
    (process_pending_files now mr fo fs).2.2.filter (fun e => e.1 = p)
      = [(p, MoveResult.moved)] ∧
    p ∉ dictKeys (process_pending_files now mr fo fs).1.pending_files := by
  have h := sweepLoop_entry_moved fo.downloads_path now mr p t c hage hok hdp
    fo.pending_files fs hnd hmem hni hsrc
  refine ⟨h.1, h.2.1, h.2.2, ?_⟩
  exact foldl_dictRemove_not_mem _ _ _
    (mem_sweepLoop_toRemove fo.downloads_path now mr fs fo.pending_files p t hmem hage)

/-- Witness for C4: the spec's scenario — `report.PDF` first seen 25
hours before the sweep moves to `documents/report.PDF`, while
`photo.png`, first seen 1 hour before, stays pending (its key is absent
from the log by the sweep's single entry for `report.PDF`). -/
theorem C4_eligible_entry_moved_once_witness :
    dictLookup (process_pending_files 90000 (fun _ => false)
        { downloads_path := "/d",
          pending_files := [("/d/report.PDF", 0), ("/d/photo.png", 86400)] }
        [("/d/report.PDF", "r"), ("/d/photo.png", "p")]).2.1
        ("/d" ++ "/" ++ classifyExt (pySuffix (pyBasename "/d/report.PDF"))
          ++ "/" ++ pyBasename "/d/report.PDF") = some "r" ∧
    dictLookup (process_pending_files 90000 (fun _ => false)
        { downloads_path := "/d",
          pending_files := [("/d/report.PDF", 0), ("/d/photo.png", 86400)] }
        [("/d/report.PDF", "r"), ("/d/photo.png", "p")]).2.1 "/d/report.PDF" = none ∧
    (process_pending_files 90000 (fun _ => false)
        { downloads_path := "/d",
          pending_files := [("/d/report.PDF", 0), ("/d/photo.png", 86400)] }
        [("/d/report.PDF", "r"), ("/d/photo.png", "p")]).2.2.filter
          (fun e => e.1 = "/d/report.PDF")
      = [("/d/report.PDF", MoveResult.moved)] ∧
    "/d/report.PDF" ∉ dictKeys (process_pending_files 90000 (fun _ => false)
        { downloads_path := "/d",
          pending_files := [("/d/report.PDF", 0), ("/d/photo.png", 86400)] }
        [("/d/report.PDF", "r"), ("/d/photo.png", "p")]).1.pending_files :=
  C4_eligible_entry_moved_once 90000 (fun _ => false)
    { downloads_path := "/d",
      pending_files := [("/d/report.PDF", 0), ("/d/photo.png", 86400)] }
    [("/d/report.PDF", "r"), ("/d/photo.png", "p")] "/d/report.PDF" 0 "r"
    (by decide) (by decide) (by decide) (by decide) (by decide) (by decide) (by decide)

/-- C5: the startup scan seeds every listed regular file with its
on-disk creation timestamp (not the scan time), so a file whose on-disk
age already meets the grace period is picked up — logged and removed —
by the very first sweep after a restart. -/
theorem C5_startup_scan_preserves_age (dp : String) (listing : List (String × Int))
    (now : Int) (mr : String → Bool) (fs : Filesystem) (p : String) (ct : Int)
    (hmem : (p, ct) ∈ listing)
    (hnd : (listing.map (·.1)).Nodup)
    (hage : now - ct ≥ gracePeriod) :
    dictLookup (mkFileOrganizer dp listing).pending_files p = some ct ∧
    p ∈ (process_pending_files now mr (mkFileOrganizer dp listing) fs).2.2.map (·.1) ∧
    p ∉ dictKeys
        (process_pending_files now mr (mkFileOrganizer dp listing) fs).1.pending_files := by
  have hlook : dictLookup (mkFileOrganizer dp listing).pending_files p = some ct :=
    foldl_dictInsert_lookup listing [] p ct hnd hmem
  have hpend : (p, ct) ∈ (mkFileOrganizer dp listing).pending_files :=
    mem_of_dictLookup_eq_some _ _ _ hlook
  have hrem : p ∈ (sweepLoop dp now mr fs (mkFileOrganizer dp listing).pending_files).2.1 :=
    mem_sweepLoop_toRemove dp now mr fs _ p ct hpend hage
  refine ⟨hlook, ?_, ?_⟩
  · show p ∈ (sweepLoop dp now mr fs (mkFileOrganizer dp listing).pending_files).2.2.map (·.1)
    rw [sweepLoop_log_keys]
    exact hrem
  · exact foldl_dictRemove_not_mem _ _ _ hrem

/-- Witness for C5: a restart with a file already 30 hours old on disk;
the first sweep handles it. -/
theorem C5_startup_scan_preserves_age_witness :
    dictLookup (mkFileOrganizer "/d" [("/d/old.pdf", 0)]).pending_files "/d/old.pdf"
      = some 0 ∧
    "/d/old.pdf" ∈ (process_pending_files 108000 (fun _ => false)
        (mkFileOrganizer "/d" [("/d/old.pdf", 0)])
        [("/d/old.pdf", "x")]).2.2.map (·.1) ∧
    "/d/old.pdf" ∉ dictKeys (process_pending_files 108000 (fun _ => false)
        (mkFileOrganizer "/d" [("/d/old.pdf", 0)])
        [("/d/old.pdf", "x")]).1.pending_files :=
  C5_startup_scan_preserves_age "/d" [("/d/old.pdf", 0)] 108000 (fun _ => false)
    [("/d/old.pdf", "x")] "/d/old.pdf" 0 (by decide) (by decide) (by decide)

/-- C6: classification is total — every extension string resolves to one
of the table's category names, with `others` as fallback — and
case-insensitive (two extensions equal after lower-casing classify
identically); the sampled table entries map exactly as the table says,
and the empty extension falls back to `others`. -/
theorem C6_classifier_total_and_case_insensitive :
    (∀ ext : String, classifyExt ext ∈ EXTENSIONS.map (·.1)) ∧
    (∀ e1 e2 : String, strToLower e1 = strToLower e2 →
      classifyExt e1 = classifyExt e2) ∧
    classifyExt ".jpg" = "images" ∧
    classifyExt ".mp3" = "music" ∧
    classifyExt ".zip" = "compressed" ∧
    classifyExt ".xyz" = "others" ∧
    classifyExt "" = "others" := by
  refine ⟨?_, ?_, by decide, by decide, by decide, by decide, by decide⟩
  · intro ext
    unfold classifyExt
    cases h : EXTENSIONS.find? (fun ce => ce.2.contains (strToLower ext)) with
    | none => decide
    | some ce => exact List.mem_map_of_mem (·.1) (List.mem_of_find?_eq_some h)
  · intro e1 e2 h
    unfold classifyExt
    rw [h]

/-- Witness for C6: the case-insensitivity conjunct at `.JPG` / `.jpg`. -/
theorem C6_classifier_total_and_case_insensitive_witness :
    classifyExt ".JPG" = classifyExt ".jpg" :=
  C6_classifier_total_and_case_insensitive.2.1 ".JPG" ".jpg" (by decide)

/-- C7: an eligible entry whose file no longer exists is handled as a
successful no-op — its single log entry is the early-return outcome, not
an error — and the entry is removed from the registry, leaving no stuck
entry (and the path still absent from the filesystem afterwards). -/
theorem C7_vanished_file_silently_dropped (now : Int) (mr : String → Bool)
    (fo : FileOrganizer) (fs : Filesystem) (p : String) (t : Int)
    (hnd : (dictKeys fo.pending_files).Nodup)
    (hmem : (p, t) ∈ fo.pending_files)
    (hage : now - t ≥ gracePeriod)
    (hsrc : dictLookup fs p = none)
    (hni : NoInterference fo.downloads_path p fo.pending_files) :
    (process_pending_files now mr fo fs).2.2.filter (fun e => e.1 = p)
      = [(p, MoveResult.skipped)] ∧
    dictLookup (process_pending_files now mr fo fs).2.1 p = none ∧
    p ∉ dictKeys (process_pending_files now mr fo fs).1.pending_files := by
  have h := sweepLoop_entry_skipped fo.downloads_path now mr p t hage
    fo.pending_files fs hnd hmem hni hsrc
  refine ⟨h.2, h.1, ?_⟩
  exact foldl_dictRemove_not_mem _ _ _
    (mem_sweepLoop_toRemove fo.downloads_path now mr fs fo.pending_files p t hmem hage)

/-- Witness for C7: a pending file deleted before the sweep. -/
theorem C7_vanished_file_silently_dropped_witness :
    (process_pending_files 86400 (fun _ => false)
        { downloads_path := "/d", pending_files := [("/d/gone.txt", 0)] }
        []).2.2.filter (fun e => e.1 = "/d/gone.txt")
      = [("/d/gone.txt", MoveResult.skipped)] ∧
    dictLookup (process_pending_files 86400 (fun _ => false)
        { downloads_path := "/d", pending_files := [("/d/gone.txt", 0)] }
        []).2.1 "/d/gone.txt" = none ∧
    "/d/gone.txt" ∉ dictKeys (process_pending_files 86400 (fun _ => false)
        { downloads_path := "/d", pending_files := [("/d/gone.txt", 0)] }
        []).1.pending_files :=
  C7_vanished_file_silently_dropped 86400 (fun _ => false)
    { downloads_path := "/d", pending_files := [("/d/gone.txt", 0)] }
    [] "/d/gone.txt" 0 (by decide) (by decide) (by decide) (by decide) (by decide)

/-- C8: the move step does not fail loudly on a destination conflict —
with `images/a.jpg` already present, sweeping an eligible `a.jpg`
reports a successful move and silently replaces the destination file's
contents (`"old"` is destroyed, the lookup now yields `"new"`), exactly
the `shutil.move`/`os.rename` overwrite the spec's design notes flag as
unintended. -/
theorem C8_move_silently_overwrites_destination :
    (process_pending_files 86400 (fun _ => false)
        { downloads_path := "/d", pending_files := [("/d/a.jpg", 0)] }
        [("/d/a.jpg", "new"), ("/d/images/a.jpg", "old")]).2.2
      = [("/d/a.jpg", MoveResult.moved)] ∧
    dictLookup (process_pending_files 86400 (fun _ => false)
        { downloads_path := "/d", pending_files := [("/d/a.jpg", 0)] }
        [("/d/a.jpg", "new"), ("/d/images/a.jpg", "old")]).2.1 "/d/images/a.jpg"
      = some "new" := by
  constructor <;> rfl

/-- C10: only the final extension component determines the category: for any
stem (which may itself contain dots, e.g. `archive.tar`) and any
dot-free non-empty final extension, the suffix of `stem.ext` is `.ext`,
so classification ignores everything before the last dot; in particular
`archive.tar.gz` has suffix `.gz` and classifies as `compressed`. -/
theorem C10_classification_uses_final_suffix_only :
    (∀ stem ext : String, stem ≠ "" → ext ≠ "" →
      (∀ ch ∈ ext.data, ch ≠ '.') →
      pySuffix (stem ++ "." ++ ext) = "." ++ ext ∧
      classifyExt (pySuffix (stem ++ "." ++ ext)) = classifyExt ("." ++ ext)) ∧
    pySuffix "archive.tar.gz" = ".gz" ∧
    classifyExt (pySuffix (pyBasename "/d/archive.tar.gz")) = "compressed" := by
  refine ⟨?_, by decide, by decide⟩
  intro stem ext hstem hext hnd
  have h := pySuffix_append stem ext hstem hext hnd
  exact ⟨h, by rw [h]⟩

/-- Witness for C10: the general conjunct at `archive.tar` / `gz`. -/
theorem C10_classification_uses_final_suffix_only_witness :
    pySuffix ("archive.tar" ++ "." ++ "gz") = "." ++ "gz" ∧
    classifyExt (pySuffix ("archive.tar" ++ "." ++ "gz")) = classifyExt ("." ++ "gz") :=
  C10_classification_uses_final_suffix_only.1 "archive.tar" "gz"
    (by decide) (by decide) (by decide)
